import Mathlib

/-!
# Verification of the miditoolkit core (spec-modelled)

The repository ships only its README, CI workflow and an example notebook;
the implementation modules (`miditoolkit.midi.parser`,
`miditoolkit.midi.containers`, `miditoolkit.pianoroll.parser`) are not part
of the provided sources.  Every definition below is therefore modelled from
the specification's own description of the data model (§3), the tempo map
(§4.1), the segment extractor (§4.2) and the piano-roll rasterizer (§4.3),
and the claims are settled against this model.
-/

namespace Miditoolkit

/-- Modelled from the spec: §3 `TempoChange` — `{tick: non-negative int,
tempo: float}`; tempo is kept as an exact rational (the spec's numeric
semantics, §4.1, describe real-valued arithmetic). -/
structure TempoChange where
  tick : Nat
  tempo : ℚ
  deriving DecidableEq, Repr

/-- Modelled from the spec: §3 `TimeSignatureChange` — `{tick, numerator,
denominator}`. -/
structure TimeSignature where
  tick : Nat
  numerator : Nat
  denominator : Nat
  deriving DecidableEq, Repr

/-- Modelled from the spec: §3 `KeySignatureChange` — `{tick, key_name}`. -/
structure KeySignature where
  tick : Nat
  key_name : String
  deriving DecidableEq, Repr

/-- Modelled from the spec: §3 `Marker` — `{tick, text}`. -/
structure Marker where
  tick : Nat
  text : String
  deriving DecidableEq, Repr

/-- Modelled from the spec: §3 `Lyric` — `{tick, text}`. -/
structure Lyric where
  tick : Nat
  text : String
  deriving DecidableEq, Repr

/-- Modelled from the spec: §3 `Note` — `{start_tick, end_tick, pitch,
velocity}`.  `pitch` is an integer so that the out-of-range check of §4.3
(`pitch outside [0,128)`) is expressible on both sides. -/
structure Note where
  start : Nat
  end_ : Nat
  pitch : Int
  velocity : Nat
  deriving DecidableEq, Repr

/-- Modelled from the spec: §3 `ControlChange` — `{tick, number, value}`. -/
structure ControlChange where
  tick : Nat
  number : Nat
  value : Nat
  deriving DecidableEq, Repr

/-- Modelled from the spec: §3 `PitchBend` — `{tick, value}`. -/
structure PitchBend where
  tick : Nat
  value : Int
  deriving DecidableEq, Repr

/-- Modelled from the spec: §3 `Instrument` — owns ordered lists of notes,
control changes and pitch bends, plus `program`, `is_drum`, `name`. -/
structure Instrument where
  program : Nat
  is_drum : Bool
  name : String
  notes : List Note
  control_changes : List ControlChange
  pitch_bends : List PitchBend
  deriving DecidableEq, Repr

/-- Modelled from the spec: §3 `MidiFile` — owns `TicksPerBeat`, the global
tick-ordered event lists, and the instruments. -/
structure MidiFile where
  ticks_per_beat : Nat
  tempo_changes : List TempoChange
  time_signature_changes : List TimeSignature
  key_signature_changes : List KeySignature
  markers : List Marker
  lyrics : List Lyric
  instruments : List Instrument
  deriving DecidableEq, Repr

/-- Modelled from the spec: §3 lifecycle — a `MidiFile` created empty is
seeded with one default tempo entry (120 BPM, i.e. 500000 μs per quarter)
and one default 4/4 time signature at tick 0; the default resolution of the
toolkit is 480 ticks per beat (the example notebook's empty file reports
`ticks_per_beat` 480 and half-beat notes of 240 ticks). -/
def MidiFile.empty : MidiFile :=
  { ticks_per_beat := 480
    tempo_changes := [⟨0, 500000⟩]
    time_signature_changes := [⟨0, 4, 4⟩]
    key_signature_changes := []
    markers := []
    lyrics := []
    instruments := [] }

/-- Modelled from the spec: the example notebook computes an eighth-note
duration as `int(beat_resol * 0.5)`, i.e. half the file's resolution,
rounded down. -/
def halfBeatDuration (m : MidiFile) : Nat :=
  m.ticks_per_beat / 2

/-! ## Segment extractor (§4.2) -/

/-- Modelled from the spec: §4.2 step 2 — one step of the most-recent-event
fold: a candidate with a tick at least as high as the best so far displaces
it (ties: last wins). -/
def mostRecentStep (tick : α → Nat) (acc : Option α) (x : α) : Option α :=
  match acc with
  | none => some x
  | some b => if tick b ≤ tick x then some x else some b

/-- Modelled from the spec: §4.2 step 2 — fold over the group keeping the
event with the highest tick seen so far, a later event displacing an equal
tick. -/
def mostRecent (tick : α → Nat) (l : List α) : Option α :=
  l.foldl (mostRecentStep tick) none

/-- Modelled from the spec: §4.2 steps 1–3, for one global event list.
Events strictly before `s` form the "before" group; events in `[s, e)` are
kept and re-based by `s`; events at or after `e` are discarded.  The
most-recent "before" event (or, failing that, the list's default when it
has one) is carried to tick 0, unless an in-range event already re-bases to
tick 0, in which case the carried event is superseded. -/
def cropStateList (tick : α → Nat) (setTick : Nat → α → α) (dflt : Option α)
    (l : List α) (s e : Nat) : List α :=
  let before := l.filter (fun x => tick x < s)
  let carried : Option α :=
    match mostRecent tick before with
    | some b => some (setTick 0 b)
    | none => dflt
  let rebased :=
    (l.filter (fun x => s ≤ tick x ∧ tick x < e)).map (fun x => setTick (tick x - s) x)
  match carried with
  | some c => if rebased.any (fun x => tick x = 0) then rebased else c :: rebased
  | none => rebased

/-- Modelled from the spec: §4.2 step 4 — a note is kept iff its start tick
lies in `[s, e)`; a kept note is re-based by `s` and its end is truncated to
`e` so it never dangles past the segment boundary. -/
def cropNote (s e : Nat) (n : Note) : Option Note :=
  if s ≤ n.start ∧ n.start < e then
    some { n with start := n.start - s, end_ := min n.end_ e - s }
  else none

/-- Modelled from the spec: §4.2 step 4 — control changes and pitch bends
are clipped by membership of their single tick in `[s, e)` and re-based. -/
def cropPlainList (tick : α → Nat) (setTick : Nat → α → α)
    (l : List α) (s e : Nat) : List α :=
  (l.filter (fun x => s ≤ tick x ∧ tick x < e)).map (fun x => setTick (tick x - s) x)

/-- Modelled from the spec: §4.2 — crop of one instrument (notes, control
changes and pitch bends clipped by tick membership). -/
def cropInstrument (s e : Nat) (ins : Instrument) : Instrument :=
  { ins with
    notes := ins.notes.filterMap (cropNote s e)
    control_changes :=
      cropPlainList ControlChange.tick (fun t c => { c with tick := t }) ins.control_changes s e
    pitch_bends :=
      cropPlainList PitchBend.tick (fun t c => { c with tick := t }) ins.pitch_bends s e }

/-- Modelled from the spec: §4.2 — the tempo list carries state and has a
synthesized 120-BPM (500000 μs/quarter) default. -/
def cropTempoList (l : List TempoChange) (s e : Nat) : List TempoChange :=
  cropStateList TempoChange.tick (fun t c => { c with tick := t }) (some ⟨0, 500000⟩) l s e

/-- Modelled from the spec: §4.2 — the time-signature list carries state and
has a synthesized 4/4 default. -/
def cropTimeSignatureList (l : List TimeSignature) (s e : Nat) : List TimeSignature :=
  cropStateList TimeSignature.tick (fun t c => { c with tick := t }) (some ⟨0, 4, 4⟩) l s e

/-- Modelled from the spec: §4.2 — `crop(midi, start_tick, end_tick)`.
Every global list is cropped with state carry-over (only tempo and time
signature synthesize a default), every instrument is clipped by tick
membership, and `ticks_per_beat` is copied unchanged. -/
def crop (m : MidiFile) (s e : Nat) : MidiFile :=
  { ticks_per_beat := m.ticks_per_beat
    tempo_changes := cropTempoList m.tempo_changes s e
    time_signature_changes := cropTimeSignatureList m.time_signature_changes s e
    key_signature_changes :=
      cropStateList KeySignature.tick (fun t c => { c with tick := t }) none
        m.key_signature_changes s e
    markers :=
      cropStateList Marker.tick (fun t c => { c with tick := t }) none m.markers s e
    lyrics :=
      cropStateList Lyric.tick (fun t c => { c with tick := t }) none m.lyrics s e
    instruments := m.instruments.map (cropInstrument s e) }

/-! ## Tempo map / tick-time converter (§4.1) -/

/-- Modelled from the spec: §4.1 — seconds elapsed per tick under a tempo of
`tempo` microseconds per quarter note at resolution `tpb`:
`(tempo / 1_000_000) / ticks_per_beat`. -/
def perTickSeconds (tempo : ℚ) (tpb : Nat) : ℚ :=
  tempo / 1000000 / tpb

/-- Modelled from the spec: §4.1 — stable insertion of a tempo change into a
tick-sorted list, placing it after any entry with the same tick so original
order is preserved among ties. -/
def insertByTick (x : TempoChange) : List TempoChange → List TempoChange
  | [] => [x]
  | y :: ys => if y.tick ≤ x.tick then y :: insertByTick x ys else x :: y :: ys

/-- Modelled from the spec: §4.1 — sort tempo changes by tick ascending
(stable). -/
def sortByTick (l : List TempoChange) : List TempoChange :=
  l.foldl (fun acc x => insertByTick x acc) []

/-- Modelled from the spec: §4.1 — resolve ties to a single effective tempo
per tick, the last value in order winning; assumes a tick-sorted input. -/
def collapseTies : List TempoChange → List TempoChange
  | [] => []
  | [b] => [b]
  | b1 :: b2 :: rest =>
    if b1.tick = b2.tick then collapseTies (b2 :: rest)
    else b1 :: collapseTies (b2 :: rest)

/-- Modelled from the spec: §4.1 — if no entry exists at tick 0, synthesize
one using the 120-BPM default (500000 μs per quarter note). -/
def ensureZeroEntry (l : List TempoChange) : List TempoChange :=
  match l with
  | [] => [⟨0, 500000⟩]
  | b :: _ => if b.tick = 0 then l else ⟨0, 500000⟩ :: l

/-- Modelled from the spec: §4.1 — the breakpoint list of the tempo map:
sorted, tie-collapsed, with a guaranteed entry at tick 0. -/
def tempoBreakpoints (l : List TempoChange) : List TempoChange :=
  ensureZeroEntry (collapseTies (sortByTick l))

/-- Modelled from the spec: §4.1 — walk the breakpoints, accumulating the
elapsed seconds of each full segment; a query tick inside a segment is
interpolated linearly with that segment's tempo, and a query beyond the last
breakpoint extrapolates with the last tempo indefinitely. -/
def secondsAt (tpb : Nat) : List TempoChange → Nat → ℚ
  | [], _ => 0
  | [b], t => ((t : ℚ) - b.tick) * perTickSeconds b.tempo tpb
  | b1 :: b2 :: rest, t =>
    if t < b2.tick then ((t : ℚ) - b1.tick) * perTickSeconds b1.tempo tpb
    else ((b2.tick : ℚ) - b1.tick) * perTickSeconds b1.tempo tpb + secondsAt tpb (b2 :: rest) t

/-- Modelled from the spec: §4.1 — `tick_to_seconds`: build the tempo map
from the tempo-change list and query it at one tick. -/
def tick_to_seconds (tpb : Nat) (l : List TempoChange) (t : Nat) : ℚ :=
  secondsAt tpb (tempoBreakpoints l) t

/-! ## Piano-roll rasterizer (§4.3) -/

/-- Modelled from the spec: §4.3 Contract A — a time step `t` is covered by
a note iff the step's tick range `[t*res, (t+1)*res)` intersects the note's
`[start_tick, end_tick)`. -/
def coversB (res : Nat) (n : Note) (t : Nat) : Bool :=
  decide (t * res < n.end_ ∧ n.start < (t + 1) * res)

/-- Modelled from the spec: §4.3 Contract A — paint one note onto the roll:
every covered step at the note's pitch takes the maximum of the existing
cell and the note's velocity. -/
def paint (res : Nat) (f : Nat → Nat → Nat) (n : Note) : Nat → Nat → Nat :=
  fun t p =>
    if n.pitch = (p : Int) ∧ coversB res n t then max (f t p) n.velocity else f t p

/-- Modelled from the spec: §4.3 Contract A — `to_pianoroll`: paint the
notes in order onto an all-zero roll (cell `(time_step, pitch) ↦
velocity`). -/
def to_pianoroll (notes : List Note) (res : Nat) : Nat → Nat → Nat :=
  notes.foldl (paint res) (fun _ _ => 0)

/-- Modelled from the spec: §4.3 Contract A — `time_steps =
ceil(max_end_tick / resolution_ticks)`. -/
def timeSteps (notes : List Note) (res : Nat) : Nat :=
  (notes.foldl (fun a n => max a n.end_) 0 + res - 1) / res

/-- Modelled from the spec: §4.3 error conditions — `resolution_ticks <= 0`
and any input pitch outside `[0, 128)` are rejected before rasterization;
no output is produced in those cases. -/
def to_pianoroll_checked (notes : List Note) (res : Int) :
    Except String (Nat → Nat → Nat) :=
  if res ≤ 0 then Except.error "resolution_ticks must be positive"
  else if notes.any (fun n => n.pitch < 0 || 128 ≤ n.pitch) then
    Except.error "pitch out of range"
  else Except.ok (to_pianoroll notes res.toNat)

/-- Modelled from the spec: §4.3 Contract B — one left-to-right scan step of
a pitch row.  The accumulator holds the open run's start step together with
the value of its first non-zero cell; a zero cell closes the open run at
the current step. -/
def rowRunsAux : List Nat → Nat → Option (Nat × Nat) → List (Nat × Nat × Nat)
  | [], _, none => []
  | [], i, some (s, w) => [(s, i, w)]
  | c :: rest, i, none =>
    if c = 0 then rowRunsAux rest (i + 1) none
    else rowRunsAux rest (i + 1) (some (i, c))
  | c :: rest, i, some (s, w) =>
    if c = 0 then (s, i, w) :: rowRunsAux rest (i + 1) none
    else rowRunsAux rest (i + 1) (some (s, w))

/-- Modelled from the spec: §4.3 Contract B — scan a pitch row left to
right starting at step `i`; each maximal run of contiguous non-zero steps
becomes one triple `(run_start_step, run_end_step_exclusive, velocity)`,
the velocity being the run's first non-zero cell. -/
def rowRuns (l : List Nat) (i : Nat) : List (Nat × Nat × Nat) :=
  rowRunsAux l i none

/-- Modelled from the spec: §4.3 Contract B — a maximal run
`(run_start, run_end_exclusive, velocity)` of a pitch row becomes one note
spanning `[run_start*res, run_end_exclusive*res)` at that pitch. -/
def runToNote (res p : Nat) (r : Nat × Nat × Nat) : Note :=
  { start := r.1 * res, end_ := r.2.1 * res, pitch := (p : Int), velocity := r.2.2 }

/-- Modelled from the spec: §4.3 Contract B — `from_pianoroll`: for each
pitch row independently, each maximal run of contiguous non-zero steps
becomes one note spanning `[run_start*res, (run_end+1)*res)`. -/
def from_pianoroll (roll : Nat → Nat → Nat) (steps res : Nat) : List Note :=
  (List.range 128).flatMap fun p =>
    (rowRuns ((List.range steps).map fun t => roll t p) 0).map (runToNote res p)

/-- Modelled from the spec: §4.3 — the quantization a round trip through the
roll applies to a note: start rounded down to a step boundary, end rounded
up. -/
def quantizeNote (res : Nat) (n : Note) : Note :=
  { n with start := n.start / res * res, end_ := (n.end_ + res - 1) / res * res }

/-- The first time step a note occupies after quantization. -/
def qStart (res : Nat) (n : Note) : Nat :=
  n.start / res

/-- One past the last time step a note occupies after quantization. -/
def qEnd (res : Nat) (n : Note) : Nat :=
  (n.end_ + res - 1) / res

/-- The quantized step interval of a note together with its velocity. -/
def qiv (res : Nat) (n : Note) : Nat × Nat × Nat :=
  (qStart res n, qEnd res n, n.velocity)

/-- The notes of a list that contribute to the roll cell `(t, p)`: those at
pitch `p` whose quantized range covers step `t`. -/
def cellNotes (res t p : Nat) (ns : List Note) : List Note :=
  ns.filter fun n => decide (n.pitch = (p : Int)) && coversB res n t

/-- Two notes are step-separated when, if they share a pitch, their
quantized step intervals are disjoint with at least one empty step between
them. -/
def StepSeparated (res : Nat) (n1 n2 : Note) : Prop :=
  n1.pitch = n2.pitch → qEnd res n1 < qStart res n2 ∨ qEnd res n2 < qStart res n1

/-- Stable insertion of a step-interval triple into a list sorted by run
start. -/
def insertByStart (x : Nat × Nat × Nat) : List (Nat × Nat × Nat) → List (Nat × Nat × Nat)
  | [] => [x]
  | y :: ys => if y.1 ≤ x.1 then y :: insertByStart x ys else x :: y :: ys

/-- Sort step-interval triples by run start. -/
def sortByStart (l : List (Nat × Nat × Nat)) : List (Nat × Nat × Nat) :=
  l.foldl (fun acc x => insertByStart x acc) []

/-- The pitch row a sorted, separated list of step intervals denotes,
starting at step `pos` and ending at step `steps`: zeros up to each run,
the run's velocity across it, zeros after the last run. -/
def rowOf : List (Nat × Nat × Nat) → Nat → Nat → List Nat
  | [], pos, steps => List.replicate (steps - pos) 0
  | (s, e, v) :: rest, pos, steps =>
    List.replicate (s - pos) 0 ++ List.replicate (e - s) v ++ rowOf rest e steps

/-! ## Theorems -/

/-- Claim C9: constructing a `MidiFile` with no input path yields an empty
file whose `ticks_per_beat` defaults to 480, so a half-beat duration
computed from it (as the notebook does, `int(beat_resol * 0.5)`) is 240
ticks; the file carries no instruments. -/
theorem empty_midifile_resolution :
    MidiFile.empty.ticks_per_beat = 480 ∧
      halfBeatDuration MidiFile.empty = 240 ∧
      MidiFile.empty.instruments = [] := by
  refine ⟨rfl, rfl, rfl⟩

/-- Claim C2: for a crop interval `[s, e)`, a note starting exactly at `e`
is excluded; a note starting exactly at `s` is included and re-based to
tick 0 with pitch and velocity intact; a note whose start is in range but
whose end exceeds `e` is kept with its end truncated to `e` re-based; and
every surviving note ends at or before the re-based segment boundary. -/
theorem cropNote_boundary_semantics (n : Note) (s e : Nat) :
    (n.start = e → cropNote s e n = none) ∧
      (n.start = s → s < e →
        ∃ m, cropNote s e n = some m ∧ m.start = 0 ∧
          m.pitch = n.pitch ∧ m.velocity = n.velocity) ∧
      (s ≤ n.start → n.start < e → e < n.end_ →
        cropNote s e n = some ⟨n.start - s, e - s, n.pitch, n.velocity⟩) ∧
      (∀ m, cropNote s e n = some m → m.end_ ≤ e - s) := by
  refine ⟨?_, ?_, ?_, ?_⟩
  · intro h
    simp only [cropNote, h]
    rw [if_neg]
    omega
  · intro h hse
    refine ⟨{ n with start := 0, end_ := min n.end_ e - s }, ?_, rfl, rfl, rfl⟩
    simp only [cropNote, h]
    rw [if_pos ⟨le_refl s, hse⟩]
    simp
  · intro h1 h2 h3
    simp only [cropNote]
    rw [if_pos ⟨h1, h2⟩]
    have : min n.end_ e = e := by omega
    simp [this]
  · intro m hm
    simp only [cropNote] at hm
    split at hm
    · cases hm
      simp only
      omega
    · exact absurd hm (by simp)

/-- Claim C2 witness: concrete boundary notes for the interval `[600, 1000)`. -/
theorem cropNote_boundary_semantics_witness :
    cropNote 600 1000 ⟨1000, 1200, 60, 90⟩ = none ∧
      (∃ m, cropNote 600 1000 ⟨600, 800, 61, 70⟩ = some m ∧ m.start = 0 ∧
        m.pitch = 61 ∧ m.velocity = 70) ∧
      cropNote 600 1000 ⟨700, 1200, 62, 80⟩ = some ⟨100, 400, 62, 80⟩ ∧
      (∀ m, cropNote 600 1000 ⟨700, 1200, 62, 80⟩ = some m → m.end_ ≤ 400) :=
  ⟨(cropNote_boundary_semantics ⟨1000, 1200, 60, 90⟩ 600 1000).1 rfl,
    (cropNote_boundary_semantics ⟨600, 800, 61, 70⟩ 600 1000).2.1 rfl (by decide),
    (cropNote_boundary_semantics ⟨700, 1200, 62, 80⟩ 600 1000).2.2.1
      (by decide) (by decide) (by decide),
    (cropNote_boundary_semantics ⟨700, 1200, 62, 80⟩ 600 1000).2.2.2⟩

/-- Claim C8: rasterization validates before producing output: a
non-positive resolution is rejected, an input note with a pitch outside
`[0, 128)` is rejected, and a successful result certifies that the
resolution was positive and every pitch was in range (no silent clipping,
no partially-built output). -/
theorem to_pianoroll_checked_validates (ns : List Note) (res : Int) :
    (res ≤ 0 →
      to_pianoroll_checked ns res = Except.error "resolution_ticks must be positive") ∧
      (0 < res → (∃ n ∈ ns, n.pitch < 0 ∨ 128 ≤ n.pitch) →
        to_pianoroll_checked ns res = Except.error "pitch out of range") ∧
      (∀ roll, to_pianoroll_checked ns res = Except.ok roll →
        0 < res ∧ ∀ n ∈ ns, 0 ≤ n.pitch ∧ n.pitch < 128) := by
  refine ⟨?_, ?_, ?_⟩
  · intro h
    simp [to_pianoroll_checked, h]
  · intro h ⟨n, hn, hbad⟩
    have hany : ns.any (fun n => n.pitch < 0 || 128 ≤ n.pitch) = true := by
      simp only [List.any_eq_true]
      exact ⟨n, hn, by simpa using hbad⟩
    simp [to_pianoroll_checked, not_le.mpr h, hany]
  · intro roll hok
    simp only [to_pianoroll_checked] at hok
    split at hok
    · exact absurd hok (by simp)
    · split at hok
      · exact absurd hok (by simp)
      · rename_i hres hany
        refine ⟨by omega, fun n hn => ?_⟩
        simp only [List.any_eq_true, not_exists, not_and] at hany
        have := hany n hn
        simp only [Bool.or_eq_true, decide_eq_true_eq] at this
        push_neg at this
        omega

/-- Claim C8 witness: a zero resolution and an out-of-range pitch are both
rejected, and a valid call is accepted with its validity certified. -/
theorem to_pianoroll_checked_validates_witness :
    to_pianoroll_checked [⟨0, 10, 60, 5⟩] 0 =
        Except.error "resolution_ticks must be positive" ∧
      to_pianoroll_checked [⟨0, 10, 200, 5⟩] 4 = Except.error "pitch out of range" :=
  ⟨(to_pianoroll_checked_validates [⟨0, 10, 60, 5⟩] 0).1 (by decide),
    (to_pianoroll_checked_validates [⟨0, 10, 200, 5⟩] 4).2.1 (by decide)
      ⟨⟨0, 10, 200, 5⟩, by simp, by decide⟩⟩

theorem foldl_paint_cell (res : Nat) (ns : List Note) (f : Nat → Nat → Nat) (t p : Nat) :
    List.foldl (paint res) f ns t p =
      max (f t p) ((cellNotes res t p ns).foldr (fun n a => max n.velocity a) 0) := by
  induction ns generalizing f with
  | nil => simp [cellNotes]
  | cons n ns ih =>
    rw [List.foldl_cons, ih]
    by_cases h : n.pitch = (p : Int) ∧ coversB res n t = true
    · have hf : (decide (n.pitch = (p : Int)) && coversB res n t) = true := by
        simp [h.1, h.2]
      simp only [cellNotes, List.filter_cons, hf, if_pos, List.foldr_cons, paint, if_pos h]
      simp only [cellNotes] at *
      omega
    · have hf : (decide (n.pitch = (p : Int)) && coversB res n t) = false := by
        rcases Decidable.not_and_iff_or_not.mp h with h1 | h1 <;> simp [h1]
      simp only [cellNotes, List.filter_cons, hf, paint, if_neg h]
      simp

/-- Claim C7: in `to_pianoroll`, every roll cell `(t, p)` holds the maximum
of the velocities of all notes at pitch `p` covering step `t` (zero when no
note covers it).  In particular, overlapping notes at the same pitch and
time step merge deterministically by maximum — never by last-writer — and
no error is raised. -/
theorem to_pianoroll_cell_is_max (ns : List Note) (res t p : Nat) :
    to_pianoroll ns res t p =
      (cellNotes res t p ns).foldr (fun n a => max n.velocity a) 0 := by
  rw [to_pianoroll, foldl_paint_cell]
  simp

theorem foldl_mostRecentStep_some (tick : α → Nat) (l : List α) (b : α) :
    ∃ r, l.foldl (mostRecentStep tick) (some b) = some r := by
  induction l generalizing b with
  | nil => exact ⟨b, rfl⟩
  | cons x xs ih =>
    rw [List.foldl_cons]
    by_cases h : tick b ≤ tick x
    · simpa [mostRecentStep, h] using ih x
    · simpa [mostRecentStep, h] using ih b

theorem mostRecent_of_ne_nil (tick : α → Nat) (l : List α) (h : l ≠ []) :
    ∃ r, mostRecent tick l = some r := by
  match l with
  | [] => exact absurd rfl h
  | x :: xs => exact foldl_mostRecentStep_some tick xs x

theorem unique_at_tick (l : List TempoChange)
    (hl : l.Pairwise fun a b => a.tick < b.tick)
    (x y : TempoChange) (hx : x ∈ l) (hy : y ∈ l) (ht : x.tick = y.tick) : x = y := by
  induction l with
  | nil => cases hx
  | cons z zs ih =>
    rcases List.pairwise_cons.mp hl with ⟨hz, hzs⟩
    rcases List.mem_cons.mp hx with rfl | hx' <;>
      rcases List.mem_cons.mp hy with rfl | hy'
    · rfl
    · exact absurd ht (by have := hz y hy'; omega)
    · exact absurd ht (by have := hz x hx'; omega)
    · exact ih hzs hx' hy'

theorem countP_tick_eq_le_one (l : List TempoChange) (s : Nat)
    (hl : l.Pairwise fun a b => a.tick < b.tick) :
    l.countP (fun c => decide (c.tick = s)) ≤ 1 := by
  induction l with
  | nil => simp
  | cons x xs ih =>
    rw [List.countP_cons]
    rcases List.pairwise_cons.mp hl with ⟨hx, hxs⟩
    by_cases h : x.tick = s
    · have hz : xs.countP (fun c => decide (c.tick = s)) = 0 := by
        rw [List.countP_eq_zero]
        intro c hc
        have := hx c hc
        simp only [decide_eq_true_eq]
        omega
      simp [h, hz]
    · simpa [h] using ih hxs

theorem filter_range_eq_cons (l : List TempoChange) (s e : Nat)
    (hl : l.Pairwise fun a b => a.tick < b.tick)
    (x : TempoChange) (hx : x ∈ l) (hxs : x.tick = s) (hse : s < e) :
    ∃ xs', l.filter (fun c => decide (s ≤ c.tick ∧ c.tick < e)) = x :: xs' ∧
      ∀ c ∈ xs', s < c.tick ∧ c.tick < e := by
  induction l with
  | nil => cases hx
  | cons y ys ih =>
    rcases List.pairwise_cons.mp hl with ⟨hy, hys⟩
    rcases List.mem_cons.mp hx with rfl | hmem
    · refine ⟨ys.filter (fun c => decide (s ≤ c.tick ∧ c.tick < e)), ?_, ?_⟩
      · rw [List.filter_cons_of_pos (by simp; omega)]
      · intro c hc
        have hcy := hy c (List.mem_of_mem_filter hc)
        have hcp := List.of_mem_filter hc
        simp only [decide_eq_true_eq] at hcp
        omega
    · have hyt : y.tick < s := by
        have := hy x hmem
        omega
      rw [List.filter_cons_of_neg (by simp; omega)]
      exact ih hys hmem

/-- Claim C1: cropping carries tempo state forward.  For every strictly
tick-sorted tempo list with an event strictly before the crop start, the
cropped tempo list begins at tick 0 and holds exactly one event there: the
most recent event strictly before the start, relocated to tick 0, unless an
in-range event sits exactly at the start, in which case that event re-bases
to tick 0 and supersedes the carried one.  In particular, for tempo events
`{0: 100, 500: 140}` and crop interval `[600, 1000)`, the cropped tempo
list is exactly `[{tick 0, tempo 140}]`. -/
theorem cropTempoList_carries_state (l : List TempoChange) (s e : Nat)
    (hl : l.Pairwise fun a b => a.tick < b.tick)
    (hb : ∃ c ∈ l, c.tick < s) (hse : s < e) :
    ((cropTempoList l s e).countP (fun c => decide (c.tick = 0)) = 1 ∧
      ∃ c0, (cropTempoList l s e).head? = some c0 ∧ c0.tick = 0) ∧
      (∀ x ∈ l, x.tick = s → (cropTempoList l s e).head? = some ⟨0, x.tempo⟩) ∧
      ((∀ x ∈ l, x.tick ≠ s) →
        ∃ b, mostRecent TempoChange.tick (l.filter fun c => c.tick < s) = some b ∧
          (cropTempoList l s e).head? = some ⟨0, b.tempo⟩) ∧
      cropTempoList [⟨0, 100⟩, ⟨500, 140⟩] 600 1000 = [⟨0, 140⟩] := by
  obtain ⟨cb, hcb, hcbs⟩ := hb
  have hbefore : l.filter (fun c => decide (c.tick < s)) ≠ [] := by
    intro hnil
    have : cb ∈ l.filter (fun c => decide (c.tick < s)) :=
      List.mem_filter.mpr ⟨hcb, by simpa using hcbs⟩
    rw [hnil] at this
    cases this
  obtain ⟨b, hbmr⟩ :=
    mostRecent_of_ne_nil TempoChange.tick (l.filter (fun c => decide (c.tick < s))) hbefore
  by_cases hat : ∃ x ∈ l, x.tick = s
  · obtain ⟨x, hxl, hxs⟩ := hat
    obtain ⟨xs', hfe, hxs'⟩ := filter_range_eq_cons l s e hl x hxl hxs hse
    have hout : cropTempoList l s e =
        ({ x with tick := 0 }) :: xs'.map fun c => { c with tick := c.tick - s } := by
      simp only [cropTempoList, cropStateList, hbmr, hfe, List.map_cons, hxs,
        Nat.sub_self]
      rw [if_pos]
      simp only [List.any_cons]
      simp
    refine ⟨⟨?_, ?_⟩, ?_, ?_, by decide⟩
    · rw [hout, List.countP_cons]
      have hz : (xs'.map fun c => { c with tick := c.tick - s } : List TempoChange).countP
          (fun c => decide (c.tick = 0)) = 0 := by
        rw [List.countP_eq_zero]
        intro c hc
        obtain ⟨c', hc', rfl⟩ := List.mem_map.mp hc
        have := hxs' c' hc'
        simp only [decide_eq_true_eq]
        omega
      rw [hz]
      simp
    · exact ⟨{ x with tick := 0 }, by rw [hout]; rfl, rfl⟩
    · intro y hyl hys
      have hxy : y = x := unique_at_tick l hl y x hyl hxl (by omega)
      subst hxy
      rw [hout]
      rfl
    · intro hno
      exact absurd hxs (hno x hxl)
  · push_neg at hat
    have hany : ((l.filter (fun c => decide (s ≤ c.tick ∧ c.tick < e))).map
        (fun c => { c with tick := c.tick - s }) : List TempoChange).any
          (fun c => decide (c.tick = 0)) = false := by
      rw [List.any_eq_false]
      intro c hc
      obtain ⟨c', hc', rfl⟩ := List.mem_map.mp hc
      have hcp := List.of_mem_filter hc'
      have hcs := hat c' (List.mem_of_mem_filter hc')
      simp only [decide_eq_true_eq] at hcp ⊢
      omega
    have hout : cropTempoList l s e =
        ({ b with tick := 0 }) ::
          (l.filter (fun c => decide (s ≤ c.tick ∧ c.tick < e))).map
            fun c => { c with tick := c.tick - s } := by
      simp only [cropTempoList, cropStateList, hbmr]
      rw [if_neg (by rw [hany]; simp)]
    refine ⟨⟨?_, ?_⟩, ?_, ?_, by decide⟩
    · rw [hout, List.countP_cons]
      have hz : ((l.filter (fun c => decide (s ≤ c.tick ∧ c.tick < e))).map
          (fun c => { c with tick := c.tick - s }) : List TempoChange).countP
            (fun c => decide (c.tick = 0)) = 0 := by
        rw [List.countP_eq_zero]
        intro c hc
        obtain ⟨c', hc', rfl⟩ := List.mem_map.mp hc
        have hcp := List.of_mem_filter hc'
        have hcs := hat c' (List.mem_of_mem_filter hc')
        simp only [decide_eq_true_eq] at hcp ⊢
        omega
      rw [hz]
      simp
    · exact ⟨{ b with tick := 0 }, by rw [hout]; rfl, rfl⟩
    · intro y hyl hys
      exact absurd hys (hat y hyl)
    · intro _
      exact ⟨b, hbmr, by rw [hout]; rfl⟩

/-- Claim C1 witness: the spec's concrete scenario, instantiating the
general carry-over statement at tempo events `{0: 100, 500: 140}` and crop
interval `[600, 1000)`. -/
theorem cropTempoList_carries_state_witness :
    ((cropTempoList [⟨0, 100⟩, ⟨500, 140⟩] 600 1000).countP
        (fun c => decide (c.tick = 0)) = 1 ∧
      ∃ b, mostRecent TempoChange.tick
          (([⟨0, 100⟩, ⟨500, 140⟩] : List TempoChange).filter fun c => c.tick < 600) =
            some b ∧
        (cropTempoList [⟨0, 100⟩, ⟨500, 140⟩] 600 1000).head? = some ⟨0, b.tempo⟩) ∧
      cropTempoList [⟨0, 100⟩, ⟨500, 140⟩] 600 1000 = [⟨0, 140⟩] := by
  have h := cropTempoList_carries_state [⟨0, 100⟩, ⟨500, 140⟩] 600 1000
    (by constructor <;> simp)
    ⟨⟨500, 140⟩, by simp, by norm_num⟩ (by norm_num)
  exact ⟨⟨h.1.1, h.2.2.1 (by intro x hx; fin_cases hx <;> simp)⟩, h.2.2.2⟩

theorem cropStateList_out_tick_lt (tick : α → Nat) (setTick : Nat → α → α)
    (dflt : Option α)
    (hget : ∀ x t, tick (setTick t x) = t)
    (hdtick : ∀ c, dflt = some c → tick c = 0)
    (l : List α) (s e : Nat) (hse : s < e) :
    ∀ x ∈ cropStateList tick setTick dflt l s e, tick x < e - s := by
  intro x hx
  have hreb : ∀ y ∈ (l.filter fun y => decide (s ≤ tick y ∧ tick y < e)).map
      (fun y => setTick (tick y - s) y), tick y < e - s := by
    intro y hy
    obtain ⟨z, hz, rfl⟩ := List.mem_map.mp hy
    have hzp := List.of_mem_filter hz
    simp only [decide_eq_true_eq] at hzp
    rw [hget]
    omega
  simp only [cropStateList] at hx
  rcases hmr : mostRecent tick (l.filter fun y => decide (tick y < s)) with _ | b
  · simp only [hmr] at hx
    rcases hd : dflt with _ | d
    · simp only [hd] at hx
      exact hreb x hx
    · simp only [hd] at hx
      split at hx
      · exact hreb x hx
      · rcases List.mem_cons.mp hx with rfl | hx'
        · rw [hdtick x hd]
          omega
        · exact hreb x hx'
  · simp only [hmr] at hx
    split at hx
    · exact hreb x hx
    · rcases List.mem_cons.mp hx with rfl | hx'
      · rw [hget]
        omega
      · exact hreb x hx'

theorem cropStateList_any_zero (tick : α → Nat) (setTick : Nat → α → α)
    (d : α)
    (hget : ∀ x t, tick (setTick t x) = t)
    (hdtick : tick d = 0)
    (l : List α) (s e : Nat) :
    (cropStateList tick setTick (some d) l s e).any (fun x => decide (tick x = 0)) = true := by
  simp only [cropStateList]
  rcases hmr : mostRecent tick (l.filter fun y => decide (tick y < s)) with _ | b
  · simp only [hmr]
    split
    · rename_i hany
      exact hany
    · simp [hdtick]
  · simp only [hmr]
    split
    · rename_i hany
      exact hany
    · simp [hget]

theorem cropStateList_idem (tick : α → Nat) (setTick : Nat → α → α) (dflt : Option α)
    (hget : ∀ x t, tick (setTick t x) = t)
    (hid : ∀ x, setTick (tick x) x = x)
    (hdtick : ∀ c, dflt = some c → tick c = 0)
    (l : List α) (s e : Nat) (hse : s < e) :
    cropStateList tick setTick dflt (cropStateList tick setTick dflt l s e) 0 (e - s)
      = cropStateList tick setTick dflt l s e := by
  set L := cropStateList tick setTick dflt l s e with hL
  have hlt : ∀ x ∈ L, tick x < e - s := by
    rw [hL]
    exact cropStateList_out_tick_lt tick setTick dflt hget hdtick l s e hse
  have hbefore : L.filter (fun x => decide (tick x < 0)) = [] := by
    rw [List.filter_eq_nil_iff]
    intro a _
    simp
  have hinside : L.filter (fun x => decide (0 ≤ tick x ∧ tick x < e - s)) = L := by
    rw [List.filter_eq_self]
    intro a ha
    simpa using hlt a ha
  have hmap : L.map (fun x => setTick (tick x - 0) x) = L := by
    apply List.map_id''
    intro x
    rw [Nat.sub_zero, hid]
  have hmr0 : mostRecent tick ([] : List α) = none := rfl
  rcases hd : dflt with _ | d
  · subst hd
    simp only [cropStateList, hbefore, hmr0]
    rw [hinside, hmap]
  · subst hd
    have hany : L.any (fun x => decide (tick x = 0)) = true := by
      rw [hL]
      exact cropStateList_any_zero tick setTick d hget (hdtick d rfl) l s e
    simp only [cropStateList, hbefore, hmr0]
    rw [hinside, hmap, if_pos hany]

theorem cropPlainList_idem (tick : α → Nat) (setTick : Nat → α → α)
    (hget : ∀ x t, tick (setTick t x) = t)
    (hid : ∀ x, setTick (tick x) x = x)
    (l : List α) (s e : Nat) :
    cropPlainList tick setTick (cropPlainList tick setTick l s e) 0 (e - s)
      = cropPlainList tick setTick l s e := by
  set L := cropPlainList tick setTick l s e with hL
  have hlt : ∀ x ∈ L, tick x < e - s := by
    intro x hx
    rw [hL] at hx
    simp only [cropPlainList] at hx
    obtain ⟨y, hy, rfl⟩ := List.mem_map.mp hx
    have := List.of_mem_filter hy
    simp only [decide_eq_true_eq] at this
    rw [hget]
    omega
  simp only [cropPlainList]
  rw [List.filter_eq_self.mpr fun a ha => by simpa using hlt a ha]
  apply List.map_id''
  intro x
  rw [Nat.sub_zero, hid]

theorem cropNote_idem (s e : Nat) (n m : Note) (h : cropNote s e n = some m) :
    cropNote 0 (e - s) m = some m := by
  obtain ⟨a, b, pp, vv⟩ := n
  simp only [cropNote] at h ⊢
  split at h
  · rename_i hc
    rw [Option.some.injEq] at h
    subst h
    simp only at hc ⊢
    rw [if_pos (by omega)]
    simp only [Option.some.injEq, Note.mk.injEq]
    refine ⟨by omega, by omega, trivial, trivial⟩
  · exact absurd h (by simp)

theorem filterMap_cropNote_idem (s e : Nat) (ns : List Note) :
    (ns.filterMap (cropNote s e)).filterMap (cropNote 0 (e - s))
      = ns.filterMap (cropNote s e) := by
  induction ns with
  | nil => rfl
  | cons n rest ih =>
    rcases h : cropNote s e n with _ | m
    · simp only [List.filterMap_cons, h, ih]
    · simp only [List.filterMap_cons, h, cropNote_idem s e n m h, ih]

theorem cropInstrument_idem (s e : Nat) (ins : Instrument) :
    cropInstrument 0 (e - s) (cropInstrument s e ins) = cropInstrument s e ins := by
  simp only [cropInstrument, Instrument.mk.injEq]
  refine ⟨trivial, trivial, trivial, ?_, ?_, ?_⟩
  · exact filterMap_cropNote_idem s e ins.notes
  · exact cropPlainList_idem _ _ (fun x t => rfl) (fun x => rfl) ins.control_changes s e
  · exact cropPlainList_idem _ _ (fun x t => rfl) (fun x => rfl) ins.pitch_bends s e

/-- Claim C4: cropping is idempotent.  Cropping by `[s, e)` and then
cropping the result by `[0, e - s)` yields the same `MidiFile` as cropping
once. -/
theorem crop_idempotent (m : MidiFile) (s e : Nat) (hse : s < e) :
    crop (crop m s e) 0 (e - s) = crop m s e := by
  simp only [crop, cropTempoList, cropTimeSignatureList, MidiFile.mk.injEq]
  refine ⟨trivial, ?_, ?_, ?_, ?_, ?_, ?_⟩
  · exact cropStateList_idem _ _ _ (fun x t => rfl) (fun x => rfl)
      (fun c hc => by cases hc; rfl) m.tempo_changes s e hse
  · exact cropStateList_idem _ _ _ (fun x t => rfl) (fun x => rfl)
      (fun c hc => by cases hc; rfl) m.time_signature_changes s e hse
  · exact cropStateList_idem _ _ _ (fun x t => rfl) (fun x => rfl)
      (fun c hc => by cases hc) m.key_signature_changes s e hse
  · exact cropStateList_idem _ _ _ (fun x t => rfl) (fun x => rfl)
      (fun c hc => by cases hc) m.markers s e hse
  · exact cropStateList_idem _ _ _ (fun x t => rfl) (fun x => rfl)
      (fun c hc => by cases hc) m.lyrics s e hse
  · rw [List.map_map]
    exact List.map_congr_left fun i _ => cropInstrument_idem s e i

/-- Claim C4 witness: idempotence at a concrete file and interval. -/
theorem crop_idempotent_witness :
    crop (crop ⟨480, [⟨0, 100⟩, ⟨500, 140⟩], [⟨0, 4, 4⟩], [⟨30, "C"⟩], [⟨700, "hi"⟩], [],
        [⟨0, false, "t", [⟨700, 1200, 60, 90⟩], [⟨650, 1, 2⟩], [⟨990, 7⟩]⟩]⟩ 600 1000)
        0 400 =
      crop ⟨480, [⟨0, 100⟩, ⟨500, 140⟩], [⟨0, 4, 4⟩], [⟨30, "C"⟩], [⟨700, "hi"⟩], [],
        [⟨0, false, "t", [⟨700, 1200, 60, 90⟩], [⟨650, 1, 2⟩], [⟨990, 7⟩]⟩]⟩ 600 1000 := by
  have h := crop_idempotent
    ⟨480, [⟨0, 100⟩, ⟨500, 140⟩], [⟨0, 4, 4⟩], [⟨30, "C"⟩], [⟨700, "hi"⟩], [],
      [⟨0, false, "t", [⟨700, 1200, 60, 90⟩], [⟨650, 1, 2⟩], [⟨990, 7⟩]⟩]⟩ 600 1000
    (by norm_num)
  simpa using h

theorem perTickSeconds_nonneg (tempo : ℚ) (tpb : Nat) (h : 0 ≤ tempo) :
    0 ≤ perTickSeconds tempo tpb := by
  unfold perTickSeconds
  positivity

theorem secondsAt_nonneg (tpb : Nat) :
    ∀ (bs : List TempoChange) (t : Nat),
      bs.Pairwise (fun a b => a.tick ≤ b.tick) →
      (∀ b ∈ bs, 0 ≤ b.tempo) →
      (∀ b, bs.head? = some b → b.tick ≤ t) →
      0 ≤ secondsAt tpb bs t
  | [], _, _, _, _ => le_refl 0
  | [b], t, _, htempo, hhead => by
    have h1 : (b.tick : ℚ) ≤ t := by
      exact_mod_cast hhead b rfl
    have h2 : 0 ≤ perTickSeconds b.tempo tpb :=
      perTickSeconds_nonneg _ _ (htempo b (by simp))
    simp only [secondsAt]
    nlinarith
  | b1 :: b2 :: rest, t, hsort, htempo, hhead => by
    have h1 : (b1.tick : ℚ) ≤ t := by
      exact_mod_cast hhead b1 rfl
    have h12 : b1.tick ≤ b2.tick :=
      (List.pairwise_cons.mp hsort).1 b2 (by simp)
    have hp1 : 0 ≤ perTickSeconds b1.tempo tpb :=
      perTickSeconds_nonneg _ _ (htempo b1 (by simp))
    simp only [secondsAt]
    split
    · nlinarith
    · rename_i hlt
      have hrec : 0 ≤ secondsAt tpb (b2 :: rest) t :=
        secondsAt_nonneg tpb (b2 :: rest) t (List.pairwise_cons.mp hsort).2
          (fun b hb => htempo b (List.mem_cons_of_mem b1 hb))
          (fun b hb => by
            cases hb
            omega)
      have hc : (b1.tick : ℚ) ≤ (b2.tick : ℚ) := by exact_mod_cast h12
      nlinarith

theorem secondsAt_mono (tpb : Nat) :
    ∀ (bs : List TempoChange) (t1 t2 : Nat),
      bs.Pairwise (fun a b => a.tick ≤ b.tick) →
      (∀ b ∈ bs, 0 ≤ b.tempo) →
      (∀ b, bs.head? = some b → b.tick ≤ t1) →
      t1 ≤ t2 →
      secondsAt tpb bs t1 ≤ secondsAt tpb bs t2
  | [], _, _, _, _, _, _ => le_refl 0
  | [b], t1, t2, _, htempo, _, ht => by
    have h2 : 0 ≤ perTickSeconds b.tempo tpb :=
      perTickSeconds_nonneg _ _ (htempo b (by simp))
    have hc : (t1 : ℚ) ≤ t2 := by exact_mod_cast ht
    simp only [secondsAt]
    nlinarith
  | b1 :: b2 :: rest, t1, t2, hsort, htempo, hhead, ht => by
    have h1 : (b1.tick : ℚ) ≤ t1 := by
      exact_mod_cast hhead b1 rfl
    have hp1 : 0 ≤ perTickSeconds b1.tempo tpb :=
      perTickSeconds_nonneg _ _ (htempo b1 (by simp))
    have hc : (t1 : ℚ) ≤ t2 := by exact_mod_cast ht
    simp only [secondsAt]
    split
    · split
      · nlinarith
      · rename_i h1' h2'
        have hrec : 0 ≤ secondsAt tpb (b2 :: rest) t2 :=
          secondsAt_nonneg tpb (b2 :: rest) t2 (List.pairwise_cons.mp hsort).2
            (fun b hb => htempo b (List.mem_cons_of_mem b1 hb))
            (fun b hb => by
              cases hb
              omega)
        have hcb : (t1 : ℚ) ≤ (b2.tick : ℚ) := by
          have : t1 ≤ b2.tick := le_of_lt h1'
          exact_mod_cast this
        nlinarith
    · split
      · rename_i h1' h2'
        omega
      · rename_i h1' h2'
        have hrec : secondsAt tpb (b2 :: rest) t1 ≤ secondsAt tpb (b2 :: rest) t2 :=
          secondsAt_mono tpb (b2 :: rest) t1 t2 (List.pairwise_cons.mp hsort).2
            (fun b hb => htempo b (List.mem_cons_of_mem b1 hb))
            (fun b hb => by
              cases hb
              omega) ht
        linarith

theorem mem_insertByTick (x a : TempoChange) :
    ∀ l : List TempoChange, a ∈ insertByTick x l ↔ a = x ∨ a ∈ l
  | [] => by simp [insertByTick]
  | y :: ys => by
    simp only [insertByTick]
    split
    · rw [List.mem_cons, mem_insertByTick x a ys, List.mem_cons]
      tauto
    · simp only [List.mem_cons]

theorem insertByTick_pairwise (x : TempoChange) :
    ∀ l : List TempoChange, l.Pairwise (fun a b => a.tick ≤ b.tick) →
      (insertByTick x l).Pairwise (fun a b => a.tick ≤ b.tick)
  | [] => by simp [insertByTick]
  | y :: ys => by
    intro hl
    rcases List.pairwise_cons.mp hl with ⟨hy, hys⟩
    simp only [insertByTick]
    split
    · rename_i hle
      rw [List.pairwise_cons]
      refine ⟨?_, insertByTick_pairwise x ys hys⟩
      intro a ha
      rcases (mem_insertByTick x a ys).mp ha with rfl | ha'
      · exact hle
      · exact hy a ha'
    · rename_i hgt
      rw [List.pairwise_cons]
      refine ⟨?_, hl⟩
      intro a ha
      rcases List.mem_cons.mp ha with rfl | ha'
      · omega
      · have := hy a ha'
        omega

theorem sortByTick_aux_pairwise :
    ∀ (l acc : List TempoChange), acc.Pairwise (fun a b => a.tick ≤ b.tick) →
      (l.foldl (fun acc x => insertByTick x acc) acc).Pairwise
        (fun a b => a.tick ≤ b.tick)
  | [], _, h => h
  | x :: xs, acc, h =>
    sortByTick_aux_pairwise xs (insertByTick x acc) (insertByTick_pairwise x acc h)

theorem sortByTick_pairwise (l : List TempoChange) :
    (sortByTick l).Pairwise (fun a b => a.tick ≤ b.tick) :=
  sortByTick_aux_pairwise l [] (by simp)

theorem sortByTick_aux_mem :
    ∀ (l acc : List TempoChange) (a : TempoChange),
      a ∈ l.foldl (fun acc x => insertByTick x acc) acc → a ∈ acc ∨ a ∈ l
  | [], _, _, h => Or.inl h
  | x :: xs, acc, a, h => by
    rcases sortByTick_aux_mem xs (insertByTick x acc) a h with h' | h'
    · rcases (mem_insertByTick x a acc).mp h' with rfl | h''
      · exact Or.inr (by simp)
      · exact Or.inl h''
    · exact Or.inr (List.mem_cons_of_mem x h')

theorem sortByTick_mem (l : List TempoChange) (a : TempoChange)
    (h : a ∈ sortByTick l) : a ∈ l := by
  rcases sortByTick_aux_mem l [] a h with h' | h'
  · cases h'
  · exact h'

theorem collapseTies_sublist : ∀ l : List TempoChange, (collapseTies l).Sublist l
  | [] => List.Sublist.refl []
  | [b] => List.Sublist.refl [b]
  | b1 :: b2 :: rest => by
    simp only [collapseTies]
    split
    · exact (collapseTies_sublist (b2 :: rest)).cons b1
    · exact (collapseTies_sublist (b2 :: rest)).cons₂ b1

theorem tempoBreakpoints_facts (l : List TempoChange) (hpos : ∀ c ∈ l, 0 < c.tempo) :
    (tempoBreakpoints l).Pairwise (fun a b => a.tick ≤ b.tick) ∧
      (∀ c ∈ tempoBreakpoints l, 0 ≤ c.tempo) ∧
      (∀ b, (tempoBreakpoints l).head? = some b → b.tick = 0) := by
  have hsorted :=
    List.Pairwise.sublist (collapseTies_sublist (sortByTick l)) (sortByTick_pairwise l)
  have hmem : ∀ c ∈ collapseTies (sortByTick l), 0 < c.tempo := fun c hc =>
    hpos c (sortByTick_mem l c ((collapseTies_sublist (sortByTick l)).subset hc))
  rw [tempoBreakpoints]
  rcases hcl : collapseTies (sortByTick l) with _ | ⟨b, rest⟩
  · simp [ensureZeroEntry]
  · rw [hcl] at hsorted hmem
    simp only [ensureZeroEntry]
    by_cases h0 : b.tick = 0
    · rw [if_pos h0]
      refine ⟨hsorted, fun c hc => le_of_lt (hmem c hc), fun b' hb' => ?_⟩
      cases hb'
      exact h0
    · rw [if_neg h0]
      refine ⟨?_, ?_, ?_⟩
      · rw [List.pairwise_cons]
        exact ⟨fun a _ => by simp, hsorted⟩
      · intro c hc
        rcases List.mem_cons.mp hc with rfl | h
        · norm_num
        · exact le_of_lt (hmem c h)
      · intro b' hb'
        cases hb'
        rfl

/-- Claim C5: for every tempo map built from a tempo-change list with
positive tempos and a positive resolution, the tick-to-seconds mapping is
monotonically non-decreasing: `t1 ≤ t2` implies `tick_to_seconds t1 ≤
tick_to_seconds t2`. -/
theorem tick_to_seconds_monotone (l : List TempoChange) (tpb t1 t2 : Nat)
    (hpos : ∀ c ∈ l, 0 < c.tempo) (_htpb : 0 < tpb) (ht : t1 ≤ t2) :
    tick_to_seconds tpb l t1 ≤ tick_to_seconds tpb l t2 := by
  obtain ⟨hsort, hnn, hhead⟩ := tempoBreakpoints_facts l hpos
  exact secondsAt_mono tpb (tempoBreakpoints l) t1 t2 hsort hnn
    (fun b hb => by rw [hhead b hb]; omega) ht

/-- Claim C5 witness: a two-breakpoint tempo map queried at ticks 100 and
700. -/
theorem tick_to_seconds_monotone_witness :
    tick_to_seconds 480 [⟨0, 500000⟩, ⟨480, 250000⟩] 100 ≤
      tick_to_seconds 480 [⟨0, 500000⟩, ⟨480, 250000⟩] 700 :=
  tick_to_seconds_monotone [⟨0, 500000⟩, ⟨480, 250000⟩] 480 100 700
    (by intro c hc; fin_cases hc <;> norm_num) (by norm_num) (by norm_num)

theorem coversB_iff (res : Nat) (n : Note) (t : Nat) (hres : 0 < res)
    (_hne : n.start < n.end_) :
    coversB res n t = true ↔ qStart res n ≤ t ∧ t < qEnd res n := by
  unfold coversB qStart qEnd
  rw [decide_eq_true_eq]
  have h1 := Nat.div_lt_iff_lt_mul (x := n.start) (y := t + 1) hres
  have h2 := Nat.le_div_iff_mul_le (x := t + 1) (y := n.end_ + res - 1) hres
  have e1 : (t + 1) * res = t * res + res := by ring
  rw [e1] at h1 h2 ⊢
  generalize t * res = M at h1 h2 ⊢
  generalize n.start / res = A at h1 ⊢
  generalize (n.end_ + res - 1) / res = B at h2 ⊢
  omega

theorem qStart_lt_qEnd (res : Nat) (n : Note) (hres : 0 < res)
    (hne : n.start < n.end_) :
    qStart res n < qEnd res n := by
  unfold qStart qEnd
  have h1 : n.start / res ≤ (n.end_ - 1) / res := Nat.div_le_div_right (by omega)
  have h2 : (n.end_ + res - 1) / res = (n.end_ - 1) / res + 1 := by
    rw [show n.end_ + res - 1 = (n.end_ - 1) + res by omega, Nat.add_div_right _ hres]
  omega

theorem cell_value_zero (res t p : Nat) (ns : List Note)
    (h : ∀ n ∈ ns, ¬(n.pitch = (p : Int) ∧ coversB res n t = true)) :
    to_pianoroll ns res t p = 0 := by
  rw [to_pianoroll_cell_is_max]
  have hnil : cellNotes res t p ns = [] := by
    rw [cellNotes, List.filter_eq_nil_iff]
    intro a ha
    simp only [Bool.and_eq_true, decide_eq_true_eq]
    exact h a ha
  rw [hnil]
  rfl

theorem cellNotes_eq_singleton (res t p : Nat) (ns : List Note)
    (hsep : ns.Pairwise (StepSeparated res))
    (hres : 0 < res)
    (hval : ∀ n ∈ ns, n.start < n.end_)
    (n : Note) (hn : n ∈ ns) (hp : n.pitch = (p : Int))
    (hcov : qStart res n ≤ t ∧ t < qEnd res n) :
    cellNotes res t p ns = [n] := by
  induction ns with
  | nil => cases hn
  | cons m rest ih =>
    rcases List.pairwise_cons.mp hsep with ⟨hm, hrest⟩
    rcases List.mem_cons.mp hn with rfl | hn'
    · rw [cellNotes, List.filter_cons_of_pos
        (by simp only [Bool.and_eq_true, decide_eq_true_eq]
            exact ⟨hp, (coversB_iff res n t hres (hval n (by simp))).mpr hcov⟩)]
      have htail : rest.filter
          (fun x => decide (x.pitch = (p : Int)) && coversB res x t) = [] := by
        rw [List.filter_eq_nil_iff]
        intro x hx
        simp only [Bool.and_eq_true, decide_eq_true_eq, not_and]
        intro hxp hxcov
        have hd := hm x hx (by rw [hp, hxp])
        have hxc := (coversB_iff res x t hres
          (hval x (List.mem_cons_of_mem _ hx))).mp hxcov
        omega
      rw [htail]
    · have hmf : (decide (m.pitch = (p : Int)) && coversB res m t) = false := by
        by_cases hmp : m.pitch = (p : Int)
        · have hd := hm n hn' (by rw [hmp, hp])
          have hq := qStart_lt_qEnd res n hres (hval n hn)
          have hcovm : coversB res m t = false := by
            cases hc : coversB res m t
            · rfl
            · exact absurd ((coversB_iff res m t hres (hval m (by simp))).mp hc)
                (by omega)
          simp [hcovm]
        · simp [hmp]
      rw [cellNotes, List.filter_cons_of_neg (by simp [hmf])]
      exact ih hrest (fun x hx => hval x (List.mem_cons_of_mem m hx)) hn'

theorem cell_value_of_covering (res t p : Nat) (ns : List Note)
    (hsep : ns.Pairwise (StepSeparated res))
    (hres : 0 < res)
    (hval : ∀ n ∈ ns, n.start < n.end_)
    (n : Note) (hn : n ∈ ns) (hp : n.pitch = (p : Int))
    (hcov : qStart res n ≤ t ∧ t < qEnd res n) :
    to_pianoroll ns res t p = n.velocity := by
  rw [to_pianoroll_cell_is_max,
    cellNotes_eq_singleton res t p ns hsep hres hval n hn hp hcov]
  simp

theorem rowRunsAux_replicate_zero :
    ∀ (k : Nat) (l : List Nat) (i : Nat),
      rowRunsAux (List.replicate k 0 ++ l) i none = rowRunsAux l (i + k) none
  | 0, l, i => by simp
  | k + 1, l, i => by
    rw [List.replicate_succ, List.cons_append]
    show rowRunsAux (List.replicate k 0 ++ l) (i + 1) none = rowRunsAux l (i + (k + 1)) none
    rw [rowRunsAux_replicate_zero k l (i + 1)]
    have e1 : i + 1 + k = i + (k + 1) := by omega
    rw [e1]

theorem rowRunsAux_replicate_run (v : Nat) (hv : v ≠ 0) :
    ∀ (j : Nat) (l : List Nat) (i s w : Nat),
      (l = [] ∨ ∃ l', l = 0 :: l') →
      rowRunsAux (List.replicate j v ++ l) i (some (s, w))
        = (s, i + j, w) :: rowRunsAux l (i + j) none
  | 0, l, i, s, w, hl => by
    rcases hl with rfl | ⟨l', rfl⟩
    · rfl
    · rfl
  | j + 1, l, i, s, w, hl => by
    rw [List.replicate_succ, List.cons_append]
    have hstep : rowRunsAux (v :: (List.replicate j v ++ l)) i (some (s, w))
        = rowRunsAux (List.replicate j v ++ l) (i + 1) (some (s, w)) := by
      simp [rowRunsAux, hv]
    rw [hstep, rowRunsAux_replicate_run v hv j l (i + 1) s w hl]
    have e1 : i + 1 + j = i + (j + 1) := by omega
    rw [e1]

theorem rowRuns_replicate_zero_append (k : Nat) (l : List Nat) (i : Nat) :
    rowRuns (List.replicate k 0 ++ l) i = rowRuns l (i + k) := by
  rw [rowRuns, rowRunsAux_replicate_zero k l i, rowRuns]

theorem rowRuns_replicate_run (v : Nat) (hv : v ≠ 0) (m : Nat) (hm : 1 ≤ m)
    (l : List Nat) (hl : l = [] ∨ ∃ l', l = 0 :: l') (i : Nat) :
    rowRuns (List.replicate m v ++ l) i = (i, i + m, v) :: rowRuns l (i + m) := by
  obtain ⟨m', rfl⟩ : ∃ m', m = m' + 1 := ⟨m - 1, by omega⟩
  rw [List.replicate_succ, List.cons_append, rowRuns]
  have hstep : rowRunsAux (v :: (List.replicate m' v ++ l)) i none
      = rowRunsAux (List.replicate m' v ++ l) (i + 1) (some (i, v)) := by
    simp [rowRunsAux, hv]
  rw [hstep, rowRunsAux_replicate_run v hv m' l (i + 1) i v hl]
  have e1 : i + 1 + m' = i + (m' + 1) := by omega
  rw [e1, rowRuns]

theorem rowRuns_rowOf :
    ∀ (ivs : List (Nat × Nat × Nat)) (pos steps : Nat),
      ivs.Pairwise (fun a b => a.2.1 < b.1) →
      (∀ iv ∈ ivs, iv.1 < iv.2.1 ∧ iv.2.2 ≠ 0) →
      (∀ iv ∈ ivs, pos ≤ iv.1) →
      rowRuns (rowOf ivs pos steps) pos = ivs
  | [], pos, steps, _, _, _ => by
    rw [rowOf, ← List.append_nil (List.replicate (steps - pos) 0),
      rowRuns_replicate_zero_append]
    rfl
  | (s, e, v) :: rest, pos, steps, hpw, hwf, hpos => by
    rcases List.pairwise_cons.mp hpw with ⟨hhead, htail⟩
    obtain ⟨hse0, hv0⟩ := hwf (s, e, v) (by simp)
    have hse : s < e := by simpa using hse0
    have hv : v ≠ 0 := by simpa using hv0
    have hps : pos ≤ s := by simpa using hpos (s, e, v) (by simp)
    have hzero : rowOf rest e steps = [] ∨ ∃ l', rowOf rest e steps = 0 :: l' := by
      cases rest with
      | nil =>
        rw [rowOf]
        rcases Nat.eq_zero_or_pos (steps - e) with h0 | h0
        · left
          rw [h0]
          rfl
        · right
          obtain ⟨k, hk⟩ : ∃ k, steps - e = k + 1 := ⟨steps - e - 1, by omega⟩
          rw [hk, List.replicate_succ]
          exact ⟨List.replicate k 0, rfl⟩
      | cons iv2 rest2 =>
        obtain ⟨s2, e2, v2⟩ := iv2
        have h2 : e < s2 := hhead (s2, e2, v2) (by simp)
        right
        rw [rowOf]
        obtain ⟨k, hk⟩ : ∃ k, s2 - e = k + 1 := ⟨s2 - e - 1, by omega⟩
        rw [hk, List.replicate_succ, List.cons_append, List.cons_append]
        exact ⟨_, rfl⟩
    rw [rowOf, List.append_assoc, rowRuns_replicate_zero_append]
    have e1 : pos + (s - pos) = s := by omega
    rw [e1, rowRuns_replicate_run v hv (e - s) (by omega) _ hzero s]
    have e2 : s + (e - s) = e := by omega
    rw [e2, rowRuns_rowOf rest e steps htail
      (fun iv hi => hwf iv (List.mem_cons_of_mem _ hi))
      (fun iv hi => le_of_lt (hhead iv hi))]

theorem map_cell_eq_rowOf (cellval : Nat → Nat) :
    ∀ (ivs : List (Nat × Nat × Nat)) (pos steps : Nat),
      ivs.Pairwise (fun a b => a.2.1 < b.1) →
      (∀ iv ∈ ivs, iv.1 < iv.2.1) →
      (∀ iv ∈ ivs, pos ≤ iv.1) →
      (∀ iv ∈ ivs, iv.2.1 ≤ steps) →
      (∀ t, pos ≤ t → t < steps → (∀ iv ∈ ivs, ¬(iv.1 ≤ t ∧ t < iv.2.1)) → cellval t = 0) →
      (∀ t iv, iv ∈ ivs → iv.1 ≤ t → t < iv.2.1 → cellval t = iv.2.2) →
      (List.range' pos (steps - pos)).map cellval = rowOf ivs pos steps
  | [], pos, steps, _, _, _, _, hc0, _ => by
    rw [rowOf, List.eq_replicate_iff]
    constructor
    · simp
    · intro b hb
      obtain ⟨t, ht, rfl⟩ := List.mem_map.mp hb
      rw [List.mem_range'_1] at ht
      exact hc0 t ht.1 (by omega) (by simp)
  | (s, e, v) :: rest, pos, steps, hpw, hwf, hpos, hsteps, hc0, hcv => by
    rcases List.pairwise_cons.mp hpw with ⟨hhead0, htail⟩
    have hhead : ∀ iv ∈ rest, e < iv.1 := fun iv hi => by simpa using hhead0 iv hi
    have hse : s < e := by simpa using hwf (s, e, v) (by simp)
    have hps : pos ≤ s := by simpa using hpos (s, e, v) (by simp)
    have hes : e ≤ steps := by simpa using hsteps (s, e, v) (by simp)
    have e1 : steps - pos = ((steps - e) + (e - s)) + (s - pos) := by omega
    rw [e1, ← List.range'_append_1 pos (s - pos) ((steps - e) + (e - s)),
      show pos + (s - pos) = s by omega,
      ← List.range'_append_1 s (e - s) (steps - e),
      show s + (e - s) = e by omega,
      List.map_append, List.map_append, rowOf]
    have piece1 : (List.range' pos (s - pos)).map cellval = List.replicate (s - pos) 0 := by
      rw [List.eq_replicate_iff]
      refine ⟨by simp, ?_⟩
      intro b hb
      obtain ⟨t, ht, rfl⟩ := List.mem_map.mp hb
      rw [List.mem_range'_1] at ht
      refine hc0 t ht.1 (by omega) ?_
      intro iv hi
      rcases List.mem_cons.mp hi with rfl | hi'
      · simp only [not_and]
        omega
      · have := hhead iv hi'
        simp only [not_and]
        omega
    have piece2 : (List.range' s (e - s)).map cellval = List.replicate (e - s) v := by
      rw [List.eq_replicate_iff]
      refine ⟨by simp, ?_⟩
      intro b hb
      obtain ⟨t, ht, rfl⟩ := List.mem_map.mp hb
      rw [List.mem_range'_1] at ht
      have := hcv t (s, e, v) (by simp) (by simpa using ht.1) (by simp; omega)
      simpa using this
    have piece3 : (List.range' e (steps - e)).map cellval = rowOf rest e steps := by
      refine map_cell_eq_rowOf cellval rest e steps htail
        (fun iv hi => hwf iv (List.mem_cons_of_mem _ hi))
        (fun iv hi => le_of_lt (hhead iv hi))
        (fun iv hi => hsteps iv (List.mem_cons_of_mem _ hi))
        ?_ (fun t iv hi h1 h2 => hcv t iv (List.mem_cons_of_mem _ hi) h1 h2)
      intro t ht1 ht2 hnone
      refine hc0 t (by omega) ht2 ?_
      intro iv hi
      rcases List.mem_cons.mp hi with rfl | hi'
      · simp only [not_and]
        omega
      · exact hnone iv hi'
    rw [piece1, piece2, piece3, List.append_assoc]

theorem mem_insertByStart (x a : Nat × Nat × Nat) :
    ∀ l, a ∈ insertByStart x l ↔ a = x ∨ a ∈ l
  | [] => by simp [insertByStart]
  | y :: ys => by
    simp only [insertByStart]
    split
    · rw [List.mem_cons, mem_insertByStart x a ys, List.mem_cons]
      tauto
    · simp only [List.mem_cons]

theorem insertByStart_pairwise (x : Nat × Nat × Nat) :
    ∀ l, l.Pairwise (fun a b => a.1 ≤ b.1) →
      (insertByStart x l).Pairwise (fun a b => a.1 ≤ b.1)
  | [] => by simp [insertByStart]
  | y :: ys => by
    intro hl
    rcases List.pairwise_cons.mp hl with ⟨hy, hys⟩
    simp only [insertByStart]
    split
    · rename_i hle
      rw [List.pairwise_cons]
      refine ⟨?_, insertByStart_pairwise x ys hys⟩
      intro a ha
      rcases (mem_insertByStart x a ys).mp ha with rfl | ha'
      · exact hle
      · exact hy a ha'
    · rename_i hgt
      rw [List.pairwise_cons]
      refine ⟨?_, hl⟩
      intro a ha
      rcases List.mem_cons.mp ha with rfl | ha'
      · omega
      · have := hy a ha'
        omega

theorem insertByStart_perm (x : Nat × Nat × Nat) :
    ∀ l, (insertByStart x l).Perm (x :: l)
  | [] => List.Perm.refl _
  | y :: ys => by
    simp only [insertByStart]
    split
    · exact ((insertByStart_perm x ys).cons y).trans (List.Perm.swap x y ys)
    · exact List.Perm.refl _

theorem sortByStart_aux_pairwise :
    ∀ (l acc : List (Nat × Nat × Nat)), acc.Pairwise (fun a b => a.1 ≤ b.1) →
      (l.foldl (fun acc x => insertByStart x acc) acc).Pairwise (fun a b => a.1 ≤ b.1)
  | [], _, h => h
  | x :: xs, acc, h =>
    sortByStart_aux_pairwise xs (insertByStart x acc) (insertByStart_pairwise x acc h)

theorem sortByStart_pairwise (l : List (Nat × Nat × Nat)) :
    (sortByStart l).Pairwise (fun a b => a.1 ≤ b.1) :=
  sortByStart_aux_pairwise l [] (by simp)

theorem sortByStart_aux_perm :
    ∀ (l acc : List (Nat × Nat × Nat)),
      (l.foldl (fun acc x => insertByStart x acc) acc).Perm (acc ++ l)
  | [], acc => by simp
  | x :: xs, acc => by
    refine (sortByStart_aux_perm xs (insertByStart x acc)).trans ?_
    refine ((insertByStart_perm x acc).append_right xs).trans ?_
    exact List.perm_middle.symm

theorem sortByStart_perm (l : List (Nat × Nat × Nat)) : (sortByStart l).Perm l :=
  sortByStart_aux_perm l []

theorem append_append_perm (A B C D : List β) :
    ((A ++ B) ++ (C ++ D)).Perm ((A ++ C) ++ (B ++ D)) := by
  rw [List.append_assoc, List.append_assoc]
  refine List.Perm.append_left A ?_
  rw [← List.append_assoc, ← List.append_assoc]
  exact List.Perm.append_right D List.perm_append_comm

theorem flatMap_append_perm (f g : α → List β) :
    ∀ l : List α, (l.flatMap fun a => f a ++ g a).Perm (l.flatMap f ++ l.flatMap g)
  | [] => by simp
  | x :: xs => by
    simp only [List.flatMap_cons]
    refine ((flatMap_append_perm f g xs).append_left (f x ++ g x)).trans ?_
    exact append_append_perm _ _ _ _

theorem flatMap_indicator (x : β) (q : α → Bool) :
    ∀ l : List α,
      (l.flatMap fun a => if q a then [x] else []) = List.replicate (l.countP q) x
  | [] => by simp
  | a :: as => by
    simp only [List.flatMap_cons, List.countP_cons]
    by_cases h : q a = true
    · rw [if_pos h, flatMap_indicator x q as]
      rw [if_pos h, List.replicate_succ]
      rfl
    · rw [if_neg h, flatMap_indicator x q as]
      rw [if_neg h]
      rfl

theorem countP_range_cast (c : Int) (m : Nat) (h0 : 0 ≤ c) (hm : c < (m : Int)) :
    (List.range m).countP (fun p : Nat => decide (c = (p : Int))) = 1 := by
  induction m with
  | zero => exact absurd hm (by push_cast; omega)
  | succ m ih =>
    rw [List.range_succ, List.countP_append]
    by_cases hc : c = (m : Int)
    · have hzero : (List.range m).countP (fun p : Nat => decide (c = (p : Int))) = 0 := by
        rw [List.countP_eq_zero]
        intro p hp
        rw [List.mem_range] at hp
        simp only [decide_eq_true_eq]
        have : (p : Int) < (m : Int) := by exact_mod_cast hp
        omega
      rw [hzero]
      simp [hc]
    · have hm' : c < (m : Int) := by
        have : c ≤ (m : Int) := by push_cast at hm ⊢; omega
        omega
      rw [ih hm']
      simp [hc]

theorem flatMap_filter_pitch_perm :
    ∀ ns : List Note, (∀ n ∈ ns, 0 ≤ n.pitch ∧ n.pitch < 128) →
      ((List.range 128).flatMap fun p =>
        ns.filter fun n => decide (n.pitch = (p : Int))).Perm ns
  | [], _ => by simp
  | n :: rest, hval => by
    have hrec := flatMap_filter_pitch_perm rest
      (fun x hx => hval x (List.mem_cons_of_mem _ hx))
    have hsplit : (fun p : Nat => (n :: rest).filter fun x => decide (x.pitch = (p : Int)))
        = fun p : Nat => (if decide (n.pitch = (p : Int)) then [n] else []) ++
            rest.filter fun x => decide (x.pitch = (p : Int)) := by
      funext p
      rw [List.filter_cons]
      split
      · rfl
      · rfl
    rw [hsplit]
    refine (flatMap_append_perm _ _ _).trans ?_
    rw [flatMap_indicator n (fun p : Nat => decide (n.pitch = (p : Int))) (List.range 128),
      countP_range_cast n.pitch 128 (hval n (by simp)).1 (by exact_mod_cast (hval n (by simp)).2)]
    exact hrec.cons n

theorem flatMap_perm_congr (f g : α → List β) :
    ∀ l : List α, (∀ a ∈ l, (f a).Perm (g a)) → (l.flatMap f).Perm (l.flatMap g)
  | [], _ => by simp
  | x :: xs, h => by
    simp only [List.flatMap_cons]
    exact (h x (by simp)).append
      (flatMap_perm_congr f g xs fun a ha => h a (List.mem_cons_of_mem _ ha))

theorem le_foldl_max_init :
    ∀ (l : List Note) (b : Nat), b ≤ l.foldl (fun a n => max a n.end_) b
  | [], b => le_refl b
  | y :: ys, b => le_trans (le_max_left b y.end_) (le_foldl_max_init ys (max b y.end_))

theorem end_le_foldl_max :
    ∀ (l : List Note) (a : Nat) (n : Note), n ∈ l →
      n.end_ ≤ l.foldl (fun a n => max a n.end_) a
  | [], _, _, hn => by cases hn
  | m :: rest, a, n, hn => by
    rcases List.mem_cons.mp hn with rfl | hn'
    · exact le_trans (le_max_right a n.end_) (le_foldl_max_init rest _)
    · exact end_le_foldl_max rest (max a m.end_) n hn'

theorem qEnd_le_timeSteps (res : Nat) (ns : List Note) (n : Note) (hn : n ∈ ns) :
    qEnd res n ≤ timeSteps ns res := by
  unfold qEnd timeSteps
  have := end_le_foldl_max ns 0 n hn
  exact Nat.div_le_div_right (by omega)

theorem row_notes_per_pitch (ns : List Note) (res : Nat) (p : Nat)
    (hres : 0 < res)
    (hval : ∀ n ∈ ns, n.start < n.end_ ∧ 0 < n.velocity)
    (hsep : ns.Pairwise (StepSeparated res)) :
    ((rowRuns ((List.range (timeSteps ns res)).map fun t => to_pianoroll ns res t p) 0).map
      (runToNote res p)).Perm
      ((ns.filter fun n => decide (n.pitch = (p : Int))).map (quantizeNote res)) := by
  set G := ns.filter fun n => decide (n.pitch = (p : Int)) with hG
  set L := G.map (qiv res) with hL
  set S := sortByStart L with hS
  have hSL : S.Perm L := by
    rw [hS]
    exact sortByStart_perm L
  have hGmem : ∀ n ∈ G, n ∈ ns ∧ n.pitch = (p : Int) := by
    intro n hn
    rw [hG] at hn
    refine ⟨List.mem_of_mem_filter hn, ?_⟩
    have := List.of_mem_filter hn
    simpa using this
  have hLmem : ∀ iv ∈ L, ∃ n ∈ G, qiv res n = iv := by
    intro iv hi
    rw [hL] at hi
    obtain ⟨n, hn, rfl⟩ := List.mem_map.mp hi
    exact ⟨n, hn, rfl⟩
  have hwfL : ∀ iv ∈ L, iv.1 < iv.2.1 ∧ iv.2.2 ≠ 0 := by
    intro iv hi
    obtain ⟨n, hn, rfl⟩ := hLmem iv hi
    obtain ⟨hne, hv⟩ := hval n (hGmem n hn).1
    refine ⟨?_, ?_⟩
    · simpa [qiv] using qStart_lt_qEnd res n hres hne
    · simp only [qiv]
      omega
  have hsepL : L.Pairwise (fun a b => a.2.1 < b.1 ∨ b.2.1 < a.1) := by
    rw [hL, List.pairwise_map]
    have hsepG : G.Pairwise (StepSeparated res) := by
      rw [hG]
      exact List.Pairwise.sublist (List.filter_sublist _) hsep
    refine List.Pairwise.imp_of_mem ?_ hsepG
    intro a b ha hb hab
    have hpa := (hGmem a ha).2
    have hpb := (hGmem b hb).2
    have := hab (by rw [hpa, hpb])
    simpa [qiv] using this
  have hsepS : S.Pairwise (fun a b => a.2.1 < b.1 ∨ b.2.1 < a.1) :=
    (List.Perm.pairwise_iff (fun h => h.symm) hSL).mpr hsepL
  have hwfS : ∀ iv ∈ S, iv.1 < iv.2.1 ∧ iv.2.2 ≠ 0 :=
    fun iv hi => hwfL iv (hSL.mem_iff.mp hi)
  have hsortS : S.Pairwise (fun a b => a.1 ≤ b.1) := by
    rw [hS]
    exact sortByStart_pairwise L
  have hchainS : S.Pairwise (fun a b => a.2.1 < b.1) := by
    refine List.Pairwise.imp_of_mem ?_ (hsortS.and hsepS)
    intro a b ha hb hab
    obtain ⟨hle, hor⟩ := hab
    rcases hor with h | h
    · exact h
    · have hb' := (hwfS b hb).1
      omega
  have hstepsS : ∀ iv ∈ S, iv.2.1 ≤ timeSteps ns res := by
    intro iv hi
    obtain ⟨n, hnG, rfl⟩ := hLmem iv (hSL.mem_iff.mp hi)
    simpa [qiv] using qEnd_le_timeSteps res ns n (hGmem n hnG).1
  have hc0 : ∀ t, 0 ≤ t → t < timeSteps ns res →
      (∀ iv ∈ S, ¬(iv.1 ≤ t ∧ t < iv.2.1)) → to_pianoroll ns res t p = 0 := by
    intro t _ _ hnone
    apply cell_value_zero
    intro n hn
    rintro ⟨hnp, hncov⟩
    have hnG : n ∈ G := by
      rw [hG]
      exact List.mem_filter.mpr ⟨hn, by simpa using hnp⟩
    have hivS : qiv res n ∈ S := by
      refine hSL.mem_iff.mpr ?_
      rw [hL]
      exact List.mem_map_of_mem _ hnG
    have hno := hnone _ hivS
    have hcv := (coversB_iff res n t hres (hval n hn).1).mp hncov
    simp only [qiv, not_and] at hno
    omega
  have hcvS : ∀ t iv, iv ∈ S → iv.1 ≤ t → t < iv.2.1 → to_pianoroll ns res t p = iv.2.2 := by
    intro t iv hi h1 h2
    obtain ⟨n, hnG, rfl⟩ := hLmem iv (hSL.mem_iff.mp hi)
    have hnns := (hGmem n hnG).1
    have hnp := (hGmem n hnG).2
    have := cell_value_of_covering res t p ns hsep hres (fun x hx => (hval x hx).1)
      n hnns hnp ⟨by simpa [qiv] using h1, by simpa [qiv] using h2⟩
    simpa [qiv] using this
  have hrow : (List.range (timeSteps ns res)).map (fun t => to_pianoroll ns res t p)
      = rowOf S 0 (timeSteps ns res) := by
    rw [List.range_eq_range']
    exact map_cell_eq_rowOf _ S 0 (timeSteps ns res) hchainS
      (fun iv hi => (hwfS iv hi).1) (fun iv _ => Nat.zero_le _) hstepsS hc0 hcvS
  rw [hrow, rowRuns_rowOf S 0 (timeSteps ns res) hchainS hwfS (fun iv _ => Nat.zero_le _)]
  refine (hSL.map _).trans ?_
  rw [hL, List.map_map]
  have hcongr : ∀ n ∈ G, (runToNote res p ∘ qiv res) n = quantizeNote res n := by
    intro n hn
    obtain ⟨-, hp⟩ := hGmem n hn
    simp [Function.comp, runToNote, qiv, qStart, qEnd, quantizeNote, hp]
  rw [List.map_congr_left hcongr]

/-- Claim C3 (amended): for every note list with positive resolution, valid
notes (`end > start`, positive velocity, pitch in `[0, 128)`) in which the
quantized step intervals of any two notes at the same pitch are separated
by at least one empty step, `to_pianoroll` followed by `from_pianoroll`
reproduces the original note set exactly (as a multiset) up to quantization
of start/end ticks to resolution boundaries, preserving pitch and
velocity. -/
theorem pianoroll_roundtrip (ns : List Note) (res : Nat)
    (hres : 0 < res)
    (hval : ∀ n ∈ ns, n.start < n.end_ ∧ 0 < n.velocity ∧ 0 ≤ n.pitch ∧ n.pitch < 128)
    (hsep : ns.Pairwise (StepSeparated res)) :
    (from_pianoroll (to_pianoroll ns res) (timeSteps ns res) res).Perm
      (ns.map (quantizeNote res)) := by
  rw [from_pianoroll]
  have h1 : ∀ p ∈ List.range 128,
      ((rowRuns ((List.range (timeSteps ns res)).map fun t => to_pianoroll ns res t p) 0).map
        (runToNote res p)).Perm
        ((ns.filter fun n => decide (n.pitch = (p : Int))).map (quantizeNote res)) :=
    fun p _ => row_notes_per_pitch ns res p hres
      (fun n hn => ⟨(hval n hn).1, (hval n hn).2.1⟩) hsep
  refine (flatMap_perm_congr _ _ (List.range 128) h1).trans ?_
  rw [← List.map_flatMap]
  exact (flatMap_filter_pitch_perm ns
    (fun n hn => ⟨(hval n hn).2.2.1, (hval n hn).2.2.2⟩)).map _

/-- Claim C3 witness: the spec's concrete scenario — `ticks_per_beat = 480`,
one note `{start 0, end 240, pitch 60, velocity 100}`, resolution 120: the
roll holds 100 at pitch-60 steps 0 and 1 and 0 at step 2, and the round
trip returns exactly that one note. -/
theorem pianoroll_roundtrip_witness :
    (from_pianoroll (to_pianoroll [⟨0, 240, 60, 100⟩] 120)
        (timeSteps [⟨0, 240, 60, 100⟩] 120) 120).Perm
      (([⟨0, 240, 60, 100⟩] : List Note).map (quantizeNote 120)) ∧
      to_pianoroll [⟨0, 240, 60, 100⟩] 120 0 60 = 100 ∧
      to_pianoroll [⟨0, 240, 60, 100⟩] 120 1 60 = 100 ∧
      to_pianoroll [⟨0, 240, 60, 100⟩] 120 2 60 = 0 ∧
      from_pianoroll (to_pianoroll [⟨0, 240, 60, 100⟩] 120)
        (timeSteps [⟨0, 240, 60, 100⟩] 120) 120 = [⟨0, 240, 60, 100⟩] :=
  ⟨pianoroll_roundtrip [⟨0, 240, 60, 100⟩] 120 (by decide) (by decide) (by simp),
    by decide, by decide, by decide, by decide⟩

/-- Claim C3 counterexample: two valid notes at the same pitch that do not
overlap in time (the first ends exactly where the second starts) rasterize
to one contiguous run, so the round trip returns a single merged note and
loses the second note's velocity — the claimed round trip fails as
stated. -/
theorem pianoroll_roundtrip_counterexample :
    (∀ n1 ∈ ([⟨0, 120, 60, 100⟩, ⟨120, 240, 60, 50⟩] : List Note),
      ∀ n2 ∈ ([⟨0, 120, 60, 100⟩, ⟨120, 240, 60, 50⟩] : List Note),
        n1 = n2 ∨ n1.end_ ≤ n2.start ∨ n2.end_ ≤ n1.start) ∧
      from_pianoroll (to_pianoroll [⟨0, 120, 60, 100⟩, ⟨120, 240, 60, 50⟩] 120)
        (timeSteps [⟨0, 120, 60, 100⟩, ⟨120, 240, 60, 50⟩] 120) 120
        = [⟨0, 240, 60, 100⟩] ∧
      ¬ (from_pianoroll (to_pianoroll [⟨0, 120, 60, 100⟩, ⟨120, 240, 60, 50⟩] 120)
        (timeSteps [⟨0, 120, 60, 100⟩, ⟨120, 240, 60, 50⟩] 120) 120).Perm
        (([⟨0, 120, 60, 100⟩, ⟨120, 240, 60, 50⟩] : List Note).map (quantizeNote 120)) := by
  refine ⟨by decide, by decide, fun h => ?_⟩
  have hlen := h.length_eq
  rw [show from_pianoroll (to_pianoroll [⟨0, 120, 60, 100⟩, ⟨120, 240, 60, 50⟩] 120)
      (timeSteps [⟨0, 120, 60, 100⟩, ⟨120, 240, 60, 50⟩] 120) 120
      = [⟨0, 240, 60, 100⟩] from by decide] at hlen
  simp at hlen

/-- Claim C6: under a single constant tempo of `T` microseconds per quarter
note and resolution `R = ticks_per_beat`, the tick-to-seconds map sends
`n * R` exactly to `n * T / 1_000_000` for every `n` — exact beat
alignment, no rounding. -/
theorem tick_to_seconds_exact_beats (T : ℚ) (R n : Nat) (_hT : 0 < T) (hR : 0 < R) :
    tick_to_seconds R [⟨0, T⟩] (n * R) = n * T / 1000000 := by
  have hbp : tempoBreakpoints [⟨0, T⟩] = [⟨0, T⟩] := by
    simp [tempoBreakpoints, sortByTick, insertByTick, collapseTies, ensureZeroEntry]
  have hR0 : (R : ℚ) ≠ 0 := by positivity
  simp only [tick_to_seconds, hbp, secondsAt, perTickSeconds]
  push_cast
  field_simp
  ring

/-- Claim C6 witness: two beats at 120 BPM (500000 μs per quarter, 480
ticks per beat) land at exactly one second. -/
theorem tick_to_seconds_exact_beats_witness :
    tick_to_seconds 480 [⟨0, 500000⟩] (2 * 480) = 2 * 500000 / 1000000 :=
  tick_to_seconds_exact_beats 500000 480 2 (by norm_num) (by norm_num)

end Miditoolkit
